import Mathlib

/-!
Verification of the ClashVision runtime post/pre-processing pipeline.

Shallow embedding of the Rust sources into Lean 4. Machine floats (f32)
are modelled by exact rationals, machine unsigned integers by Nat with
truncating subtraction and division where the source uses them.

Embedded units:
  src/src/detection/bbox.rs          (BoundingBox and its geometry)
  src/src/detection/nms.rs           (nms, nms_per_class)
  src/src/model/yolov8_inference.rs  (dense anchor-free decoder)
  src/src/model/yolov10_inference.rs (fixed-topk decoder)
  src/src/image/image_util.rs        (resize_and_pad_image, normalize_image_f32)
  src/src/image/mod.rs               (DEFAULT_MEAN, DEFAULT_STD)
  src/src/detection/visualization.rs (draw_bounding_boxes, blend_with_original_image)
  src/src/session/yolo_session.rs    (save_outputs, process_image, batch)
-/

/-- Axis-aligned detection box, from src/src/detection/bbox.rs. -/
structure BoundingBox where
  x1 : ℚ
  y1 : ℚ
  x2 : ℚ
  y2 : ℚ
  class_id : ℕ
  confidence : ℚ
deriving DecidableEq

/-- BoundingBox::new, bbox.rs lines 18-27: plain field assembly, no validation. -/
def BoundingBox.new (x1 y1 x2 y2 : ℚ) (class_id : ℕ) (confidence : ℚ) : BoundingBox :=
  ⟨x1, y1, x2, y2, class_id, confidence⟩

/-- BoundingBox::from_center, bbox.rs lines 31-49. -/
def BoundingBox.from_center (cx cy width height : ℚ) (class_id : ℕ) (confidence : ℚ) :
    BoundingBox :=
  let half_width := width * (1 / 2)
  let half_height := height * (1 / 2)
  BoundingBox.new (cx - half_width) (cy - half_height) (cx + half_width) (cy + half_height)
    class_id confidence

/-- BoundingBox::intersection, bbox.rs lines 54-58. -/
def BoundingBox.intersection (b o : BoundingBox) : ℚ :=
  max (min b.x2 o.x2 - max b.x1 o.x1) 0 * max (min b.y2 o.y2 - max b.y1 o.y1) 0

/-- BoundingBox::area, bbox.rs lines 81-83. -/
def BoundingBox.area (b : BoundingBox) : ℚ :=
  (b.x2 - b.x1) * (b.y2 - b.y1)

/-- BoundingBox::union, bbox.rs lines 63-65. -/
def BoundingBox.union (b o : BoundingBox) : ℚ :=
  b.area + o.area - b.intersection o

/-- BoundingBox::iou, bbox.rs lines 70-76: early return 0 on empty intersection. -/
def BoundingBox.iou (b o : BoundingBox) : ℚ :=
  if b.intersection o = 0 then 0 else b.intersection o / b.union o

/-- BoundingBox::center, bbox.rs lines 88-90. -/
def BoundingBox.center (b : BoundingBox) : ℚ × ℚ :=
  ((b.x1 + b.x2) * (1 / 2), (b.y1 + b.y2) * (1 / 2))

/-- BoundingBox::dimensions, bbox.rs lines 95-97. -/
def BoundingBox.dimensions (b : BoundingBox) : ℚ × ℚ :=
  (b.x2 - b.x1, b.y2 - b.y1)

lemma BoundingBox.intersection_comm (b o : BoundingBox) :
    b.intersection o = o.intersection b := by
  unfold BoundingBox.intersection
  rw [min_comm b.x2 o.x2, max_comm b.x1 o.x1, min_comm b.y2 o.y2, max_comm b.y1 o.y1]

lemma BoundingBox.union_comm (b o : BoundingBox) : b.union o = o.union b := by
  unfold BoundingBox.union
  rw [BoundingBox.intersection_comm]
  ring

lemma BoundingBox.iou_comm (b o : BoundingBox) : b.iou o = o.iou b := by
  unfold BoundingBox.iou
  rw [BoundingBox.intersection_comm, BoundingBox.union_comm]

/-- C4 counterexample: the constructors never fail; both BoundingBox::new
and BoundingBox::from_center yield a value whose x1 is not below its x2. -/
theorem constructor_accepts_degenerate_cex :
    ¬ (BoundingBox.new 1 0 0 0 0 0).x1 < (BoundingBox.new 1 0 0 0 0 0).x2 ∧
    ¬ (BoundingBox.from_center 0 0 (-2) 2 0 0).x1 < (BoundingBox.from_center 0 0 (-2) 2 0 0).x2 := by
  norm_num [BoundingBox.from_center, BoundingBox.new]

/-- C4 (amended): BoundingBox::new and BoundingBox::from_center perform no
validation and always produce a box; new stores exactly the given fields and
from_center produces width x2 - x1 = width and y2 - y1 = height, so inputs with
x1 >= x2, y1 >= y2 or non-positive width or height still yield a value. -/
theorem constructor_total_no_validation (x1 y1 x2 y2 cx cy w h : ℚ) (cid : ℕ) (conf : ℚ) :
    (BoundingBox.new x1 y1 x2 y2 cid conf).x1 = x1 ∧
    (BoundingBox.new x1 y1 x2 y2 cid conf).y1 = y1 ∧
    (BoundingBox.new x1 y1 x2 y2 cid conf).x2 = x2 ∧
    (BoundingBox.new x1 y1 x2 y2 cid conf).y2 = y2 ∧
    (BoundingBox.new x1 y1 x2 y2 cid conf).class_id = cid ∧
    (BoundingBox.new x1 y1 x2 y2 cid conf).confidence = conf ∧
    (BoundingBox.from_center cx cy w h cid conf).x2
      - (BoundingBox.from_center cx cy w h cid conf).x1 = w ∧
    (BoundingBox.from_center cx cy w h cid conf).y2
      - (BoundingBox.from_center cx cy w h cid conf).y1 = h := by
  refine ⟨rfl, rfl, rfl, rfl, rfl, rfl, ?_, ?_⟩ <;>
    · simp [BoundingBox.from_center, BoundingBox.new]
      ring

/-- Stable insertion modelling Vec::sort_by with the descending confidence
comparator (nms.rs lines 21-25): a newly inserted element goes after every
already-placed element of greater or equal confidence, before the first
strictly smaller one, which is exactly the relative order the stable sort
produces when elements are committed in input order. -/
def sortInsert (b : BoundingBox) : List BoundingBox → List BoundingBox
  | [] => [b]
  | c :: rest =>
      if b.confidence ≤ c.confidence then c :: sortInsert b rest else b :: c :: rest

/-- sorted_boxes.sort_by confidence descending (stable), nms.rs lines 20-25. -/
def sortByConfDesc (boxes : List BoundingBox) : List BoundingBox :=
  boxes.foldl (fun acc b => sortInsert b acc) []

/-- The greedy suppression loop of nms.rs lines 27-43 as recursion: the
first remaining box is selected, and every later box whose IoU with it is
strictly above the threshold is marked suppressed, i.e. dropped from the
remaining list before the loop continues. -/
def nmsLoop (iou_threshold : ℚ) (l : List BoundingBox) : List BoundingBox :=
  match l with
  | [] => []
  | b :: rest =>
      b :: nmsLoop iou_threshold (rest.filter (fun o => !decide (b.iou o > iou_threshold)))
termination_by l.length
decreasing_by
  simp only [List.length_cons]
  exact Nat.lt_succ_of_le (List.length_filter_le _ _)

/-- nms, nms.rs lines 14-46. -/
def nms (boxes : List BoundingBox) (iou_threshold : ℚ) : List BoundingBox :=
  if boxes.isEmpty then [] else nmsLoop iou_threshold (sortByConfDesc boxes)

/-- nms_per_class, nms.rs lines 56-81. The boxes are grouped by class_id in
a HashMap whose value-iteration order is unspecified; key_order models the
order in which HashMap::values yields the per-class groups. Each group holds
its boxes in input order (entry(..).or_default().push), each group runs nms
independently, and the merged result is re-sorted by confidence descending
with the same stable comparator. -/
def nms_per_class (key_order : List ℕ) (boxes : List BoundingBox) (iou_threshold : ℚ) :
    List BoundingBox :=
  sortByConfDesc
    ((key_order.map
      (fun c => nms (boxes.filter (fun b => decide (b.class_id = c))) iou_threshold)).flatten)

lemma mem_suppressFilter {t : ℚ} {b o : BoundingBox} {rest : List BoundingBox} :
    o ∈ rest.filter (fun o => !decide (b.iou o > t)) ↔ o ∈ rest ∧ b.iou o ≤ t := by
  simp [List.mem_filter, not_lt]

lemma nmsLoop_sublist (t : ℚ) : ∀ (n : ℕ) (l : List BoundingBox), l.length ≤ n →
    (nmsLoop t l).Sublist l := by
  intro n
  induction n with
  | zero =>
      intro l hl
      have : l = [] := List.eq_nil_of_length_eq_zero (Nat.le_zero.mp hl)
      subst this
      simp [nmsLoop]
  | succ n ih =>
      intro l hl
      match l with
      | [] => simp [nmsLoop]
      | b :: rest =>
          rw [nmsLoop]
          refine List.Sublist.cons₂ b ?_
          have hlen : (rest.filter (fun o => !decide (b.iou o > t))).length ≤ n :=
            le_trans (List.length_filter_le _ _)
              (Nat.lt_succ_iff.mp (lt_of_lt_of_le (by simp) hl))
          exact (ih _ hlen).trans (List.filter_sublist rest)

lemma nmsLoop_pairwise (t : ℚ) : ∀ (n : ℕ) (l : List BoundingBox), l.length ≤ n →
    List.Pairwise (fun a b => a.iou b ≤ t ∧ b.iou a ≤ t) (nmsLoop t l) := by
  intro n
  induction n with
  | zero =>
      intro l hl
      have : l = [] := List.eq_nil_of_length_eq_zero (Nat.le_zero.mp hl)
      subst this
      simp [nmsLoop]
  | succ n ih =>
      intro l hl
      match l with
      | [] => simp [nmsLoop]
      | b :: rest =>
          rw [nmsLoop]
          have hlen : (rest.filter (fun o => !decide (b.iou o > t))).length ≤ n :=
            le_trans (List.length_filter_le _ _)
              (Nat.lt_succ_iff.mp (lt_of_lt_of_le (by simp) hl))
          refine List.Pairwise.cons ?_ (ih _ hlen)
          intro o ho
          have homem : o ∈ rest.filter (fun o => !decide (b.iou o > t)) :=
            (nmsLoop_sublist t n _ hlen).subset ho
          have hle : b.iou o ≤ t := (mem_suppressFilter.mp homem).2
          exact ⟨hle, by rwa [BoundingBox.iou_comm]⟩

/-- A box that no other box can suppress is retained by the greedy loop. -/
lemma nmsLoop_mem_of_never_suppressed (t : ℚ) :
    ∀ (n : ℕ) (l : List BoundingBox) (b : BoundingBox), l.length ≤ n → b ∈ l →
    (∀ x : BoundingBox, x.iou b ≤ t) → b ∈ nmsLoop t l := by
  intro n
  induction n with
  | zero =>
      intro l b hl hb _
      have : l = [] := List.eq_nil_of_length_eq_zero (Nat.le_zero.mp hl)
      subst this
      simp at hb
  | succ n ih =>
      intro l b hl hb hx
      match l with
      | [] => simp at hb
      | c :: rest =>
          rw [nmsLoop]
          rcases List.mem_cons.mp hb with hbc | hbrest
          · exact hbc ▸ List.mem_cons_self _ _
          · have hlen : (rest.filter (fun o => !decide (c.iou o > t))).length ≤ n :=
              le_trans (List.length_filter_le _ _)
                (Nat.lt_succ_iff.mp (lt_of_lt_of_le (by simp) hl))
            have hbf : b ∈ rest.filter (fun o => !decide (c.iou o > t)) :=
              mem_suppressFilter.mpr ⟨hbrest, hx c⟩
            exact List.mem_cons_of_mem _ (ih _ b hlen hbf hx)

lemma sortInsert_perm (b : BoundingBox) (l : List BoundingBox) :
    (sortInsert b l).Perm (b :: l) := by
  induction l with
  | nil => simp [sortInsert]
  | cons c rest ih =>
      rw [sortInsert]
      by_cases h : b.confidence ≤ c.confidence
      · rw [if_pos h]
        exact (ih.cons c).trans (List.Perm.swap b c rest)
      · rw [if_neg h]

lemma sortByConfDesc_perm (l : List BoundingBox) : (sortByConfDesc l).Perm l := by
  have key : ∀ (l acc : List BoundingBox),
      (l.foldl (fun acc b => sortInsert b acc) acc).Perm (l ++ acc) := by
    intro l
    induction l with
    | nil => intro acc; simp
    | cons b rest ih =>
        intro acc
        have h1 := ih (sortInsert b acc)
        have h2 : (rest ++ sortInsert b acc).Perm (rest ++ (b :: acc)) :=
          List.Perm.append_left rest (sortInsert_perm b acc)
        have h3 : (rest ++ (b :: acc)).Perm (b :: (rest ++ acc)) := List.perm_middle
        simpa using (h1.trans h2).trans h3
  simpa using key l []

lemma nms_subset {boxes : List BoundingBox} {t : ℚ} : ∀ b ∈ nms boxes t, b ∈ boxes := by
  intro b hb
  unfold nms at hb
  by_cases he : boxes.isEmpty
  · rw [if_pos he] at hb
    simp at hb
  · rw [if_neg he] at hb
    have h1 : b ∈ sortByConfDesc boxes :=
      (nmsLoop_sublist t (sortByConfDesc boxes).length _ le_rfl).subset hb
    exact (sortByConfDesc_perm boxes).mem_iff.mp h1

lemma nms_pairwise (boxes : List BoundingBox) (t : ℚ) :
    List.Pairwise (fun a b => a.iou b ≤ t ∧ b.iou a ≤ t) (nms boxes t) := by
  unfold nms
  by_cases he : boxes.isEmpty
  · rw [if_pos he]
    simp
  · rw [if_neg he]
    exact nmsLoop_pairwise t (sortByConfDesc boxes).length _ le_rfl

lemma nms_class_eq {boxes : List BoundingBox} {t : ℚ} {c : ℕ} :
    ∀ b ∈ nms (boxes.filter (fun b => decide (b.class_id = c))) t, b.class_id = c := by
  intro b hb
  have := nms_subset b hb
  simpa using (List.mem_filter.mp this).2

lemma nms_per_class_subset {key_order : List ℕ} {boxes : List BoundingBox} {t : ℚ} :
    ∀ b ∈ nms_per_class key_order boxes t, b ∈ boxes := by
  intro b hb
  unfold nms_per_class at hb
  have h1 := (sortByConfDesc_perm _).mem_iff.mp hb
  rcases List.mem_flatten.mp h1 with ⟨chunk, hchunk, hbchunk⟩
  rcases List.mem_map.mp hchunk with ⟨c, _, hc⟩
  subst hc
  have := nms_subset b hbchunk
  exact (List.mem_filter.mp this).1

lemma nms_per_class_pairwise (key_order : List ℕ) (boxes : List BoundingBox) (t : ℚ)
    (hko : key_order.Nodup) :
    List.Pairwise (fun a b => a.class_id = b.class_id → (a.iou b ≤ t ∧ b.iou a ≤ t))
      (nms_per_class key_order boxes t) := by
  have hsym : ∀ {x y : BoundingBox},
      (x.class_id = y.class_id → (x.iou y ≤ t ∧ y.iou x ≤ t)) →
      (y.class_id = x.class_id → (y.iou x ≤ t ∧ x.iou y ≤ t)) := by
    intro x y h heq
    rcases h heq.symm with ⟨h1, h2⟩
    exact ⟨h2, h1⟩
  unfold nms_per_class
  rw [((sortByConfDesc_perm _).pairwise_iff hsym)]
  induction key_order with
  | nil => simp
  | cons c ks ih =>
      rw [List.map_cons, List.flatten_cons, List.pairwise_append]
      refine ⟨List.Pairwise.imp ?_ (nms_pairwise _ t), ih hko.of_cons, ?_⟩
      · intro a b h _
        exact h
      intro a ha b hb heq
      exfalso
      have hac : a.class_id = c := nms_class_eq a ha
      rcases List.mem_flatten.mp hb with ⟨chunk, hchunk, hbchunk⟩
      rcases List.mem_map.mp hchunk with ⟨c2, hc2, hcc⟩
      subst hcc
      have hbc : b.class_id = c2 := nms_class_eq b hbchunk
      have : c = c2 := by rw [← hac, ← hbc, heq]
      exact (List.nodup_cons.mp hko).1 (this ▸ hc2)

/-- C1: every box output by nms or nms_per_class is a member of the input
list (which the pipeline feeds already confidence-filtered), and no two
output boxes of the same comparison scope, i.e. any pair for class-agnostic
nms and same-class pairs for per-class nms under any HashMap value order,
have IoU strictly above the threshold. -/
theorem nms_output_subset_and_iou_bounded (boxes : List BoundingBox) (t : ℚ)
    (key_order : List ℕ) (hko : key_order.Nodup) :
    (∀ b ∈ nms boxes t, b ∈ boxes) ∧
    List.Pairwise (fun a b => a.iou b ≤ t ∧ b.iou a ≤ t) (nms boxes t) ∧
    (∀ b ∈ nms_per_class key_order boxes t, b ∈ boxes) ∧
    List.Pairwise (fun a b => a.class_id = b.class_id → (a.iou b ≤ t ∧ b.iou a ≤ t))
      (nms_per_class key_order boxes t) :=
  ⟨fun _ hb => nms_subset _ hb, nms_pairwise boxes t,
   fun _ hb => nms_per_class_subset _ hb, nms_per_class_pairwise key_order boxes t hko⟩

/-- C1 witness at a concrete input. -/
theorem nms_output_subset_and_iou_bounded_witness :
    (∀ b ∈ nms [⟨0, 0, 10, 10, 0, 1⟩] 1, b ∈ [(⟨0, 0, 10, 10, 0, 1⟩ : BoundingBox)]) ∧
    List.Pairwise (fun a b => a.iou b ≤ 1 ∧ b.iou a ≤ 1) (nms [⟨0, 0, 10, 10, 0, 1⟩] 1) ∧
    (∀ b ∈ nms_per_class [0] [⟨0, 0, 10, 10, 0, 1⟩] 1,
      b ∈ [(⟨0, 0, 10, 10, 0, 1⟩ : BoundingBox)]) ∧
    List.Pairwise (fun a b => a.class_id = b.class_id → (a.iou b ≤ 1 ∧ b.iou a ≤ 1))
      (nms_per_class [0] [⟨0, 0, 10, 10, 0, 1⟩] 1) :=
  nms_output_subset_and_iou_bounded [⟨0, 0, 10, 10, 0, 1⟩] 1 [0] (by simp)

/-- C8: a degenerate box (zero width or zero height) has IoU exactly zero
with every box, in both argument orders, because the intersection term is
already zero and the early return fires before any division by the union;
hence for any non-negative threshold a degenerate box present in the input
is never suppressed by another box and survives nms. -/
theorem zero_area_box_never_suppressed (b : BoundingBox)
    (hdeg : b.x1 = b.x2 ∨ b.y1 = b.y2) (t : ℚ) (ht : 0 ≤ t)
    (boxes : List BoundingBox) (hmem : b ∈ boxes) :
    (∀ o : BoundingBox, b.iou o = 0 ∧ o.iou b = 0) ∧ b ∈ nms boxes t := by
  have hinter : ∀ o : BoundingBox, b.intersection o = 0 := by
    intro o
    unfold BoundingBox.intersection
    rcases hdeg with h | h
    · have h1 : min b.x2 o.x2 - max b.x1 o.x1 ≤ 0 := by
        have hm1 := min_le_left b.x2 o.x2
        have hm2 := le_max_left b.x1 o.x1
        linarith
      rw [max_eq_right h1, zero_mul]
    · have h1 : min b.y2 o.y2 - max b.y1 o.y1 ≤ 0 := by
        have hm1 := min_le_left b.y2 o.y2
        have hm2 := le_max_left b.y1 o.y1
        linarith
      rw [max_eq_right h1, mul_zero]
  have hiou : ∀ o : BoundingBox, b.iou o = 0 ∧ o.iou b = 0 := by
    intro o
    constructor
    · unfold BoundingBox.iou
      rw [if_pos (hinter o)]
    · rw [BoundingBox.iou_comm]
      unfold BoundingBox.iou
      rw [if_pos (hinter o)]
  refine ⟨hiou, ?_⟩
  have hne : boxes.isEmpty = false := by
    cases boxes with
    | nil => simp at hmem
    | cons c rest => simp
  unfold nms
  rw [hne]
  simp only [Bool.false_eq_true, if_false]
  exact nmsLoop_mem_of_never_suppressed t (sortByConfDesc boxes).length _ b le_rfl
    ((sortByConfDesc_perm boxes).mem_iff.mpr hmem)
    (fun x => le_of_eq_of_le (hiou x).2 ht)

/-- C8 witness at a concrete input. -/
theorem zero_area_box_never_suppressed_witness :
    (∀ o : BoundingBox, (⟨5, 0, 5, 10, 0, 1⟩ : BoundingBox).iou o = 0 ∧
      o.iou ⟨5, 0, 5, 10, 0, 1⟩ = 0) ∧
    (⟨5, 0, 5, 10, 0, 1⟩ : BoundingBox) ∈ nms [⟨5, 0, 5, 10, 0, 1⟩] 0 :=
  zero_area_box_never_suppressed ⟨5, 0, 5, 10, 0, 1⟩ (Or.inl rfl) 0 le_rfl
    [⟨5, 0, 5, 10, 0, 1⟩] (by simp)

/-- C5: per-class suppression is not deterministic across runs and does not
keep the input order of equal-confidence boxes. The two disjoint boxes below
share confidence 1 but have distinct classes; the boxes enter in the input
order A then B, both survive their per-class pass untouched, and the final
sort compares only confidence, so the output order is whatever order
HashMap::values happened to yield the two class groups in: the value orders
[0, 1] and [1, 0] enumerate the same key set yet produce different outputs,
and the second output violates the input order of the tie. -/
theorem nms_per_class_output_depends_on_hash_order :
    nms_per_class [0, 1] [⟨0, 0, 10, 10, 0, 1⟩, ⟨20, 20, 30, 30, 1, 1⟩] (mkRat 2 5)
      = [⟨0, 0, 10, 10, 0, 1⟩, ⟨20, 20, 30, 30, 1, 1⟩] ∧
    nms_per_class [1, 0] [⟨0, 0, 10, 10, 0, 1⟩, ⟨20, 20, 30, 30, 1, 1⟩] (mkRat 2 5)
      = [⟨20, 20, 30, 30, 1, 1⟩, ⟨0, 0, 10, 10, 0, 1⟩] ∧
    ([0, 1] : List ℕ).Perm [1, 0] := by
  refine ⟨?_, ?_, by decide⟩ <;>
    norm_num [nms_per_class, nms, nmsLoop, sortByConfDesc, sortInsert]

/-- One update of the max-class scan, yolov8_inference.rs lines 34-40:
the running pair (max_class_id, max_class_prob) is replaced only on a
strictly greater score. -/
def scanStep (score : ℕ → ℚ) : ℕ × ℚ → ℕ → ℕ × ℚ :=
  fun acc c => if score c > acc.2 then (c, score c) else acc

/-- The max-class scan of yolov8_inference.rs lines 30-40: max_class_prob
starts at the class-0 score and classes 1 .. numClasses-1 are scanned with
strict comparison. -/
def classMaxScan (score : ℕ → ℚ) (numClasses : ℕ) : ℕ × ℚ :=
  (List.range' 1 (numClasses - 1)).foldl (scanStep score) (0, score 0)

/-- Yolov8Inference::parse_output, yolov8_inference.rs lines 9-52. The raw
row-major (numRows, numDet) view is the index function out, with
raw[r * stride + det] = out r det; rows 0-3 hold the center-form box of a
candidate column and rows 4 .. numRows-1 its per-class scores. A box is
pushed only when the max class score strictly exceeds the threshold. -/
def Yolov8Inference.parse_output (out : ℕ → ℕ → ℚ) (numRows numDet : ℕ) (thr : ℚ) :
    List BoundingBox :=
  (List.range numDet).filterMap (fun det =>
    if (classMaxScan (fun c => out (4 + c) det) (numRows - 4)).2 > thr then
      some (BoundingBox.from_center (out 0 det) (out 1 det) (out 2 det) (out 3 det)
        (classMaxScan (fun c => out (4 + c) det) (numRows - 4)).1
        (classMaxScan (fun c => out (4 + c) det) (numRows - 4)).2)
    else none)

/-- Yolov10Inference::parse_output, yolov10_inference.rs lines 9-39: each
outer row holds (x1, y1, x2, y2, confidence, class); emission uses the
inclusive comparison confidence >= threshold, and the f32-to-usize cast of
the class value truncates toward zero and clamps negatives to zero. -/
def Yolov10Inference.parse_output (row : ℕ → ℕ → ℚ) (numDet : ℕ) (thr : ℚ) :
    List BoundingBox :=
  (List.range numDet).filterMap (fun det =>
    if row det 4 ≥ thr then
      some (BoundingBox.new (row det 0) (row det 1) (row det 2) (row det 3)
        (⌊row det 5⌋).toNat (row det 4))
    else none)

lemma filterMap_ite_eq_filter_map {α β : Type} (p : α → Prop) [DecidablePred p] (f : α → β)
    (l : List α) :
    l.filterMap (fun a => if p a then some (f a) else none)
      = (l.filter (fun a => decide (p a))).map f := by
  induction l with
  | nil => simp
  | cons a l ih =>
      by_cases h : p a <;> simp [h, ih]

lemma v8_parse_eq (out : ℕ → ℕ → ℚ) (numRows numDet : ℕ) (thr : ℚ) :
    Yolov8Inference.parse_output out numRows numDet thr
      = ((List.range numDet).filter
          (fun det => decide ((classMaxScan (fun c => out (4 + c) det) (numRows - 4)).2 > thr))).map
          (fun det => BoundingBox.from_center (out 0 det) (out 1 det) (out 2 det) (out 3 det)
            (classMaxScan (fun c => out (4 + c) det) (numRows - 4)).1
            (classMaxScan (fun c => out (4 + c) det) (numRows - 4)).2) := by
  unfold Yolov8Inference.parse_output
  exact filterMap_ite_eq_filter_map
    (fun det => (classMaxScan (fun c => out (4 + c) det) (numRows - 4)).2 > thr)
    (fun det => BoundingBox.from_center (out 0 det) (out 1 det) (out 2 det) (out 3 det)
      (classMaxScan (fun c => out (4 + c) det) (numRows - 4)).1
      (classMaxScan (fun c => out (4 + c) det) (numRows - 4)).2)
    (List.range numDet)

lemma v10_parse_eq (row : ℕ → ℕ → ℚ) (numDet : ℕ) (thr : ℚ) :
    Yolov10Inference.parse_output row numDet thr
      = ((List.range numDet).filter (fun det => decide (row det 4 ≥ thr))).map
          (fun det => BoundingBox.new (row det 0) (row det 1) (row det 2) (row det 3)
            (⌊row det 5⌋).toNat (row det 4)) := by
  unfold Yolov10Inference.parse_output
  exact filterMap_ite_eq_filter_map (fun det => row det 4 ≥ thr)
    (fun det => BoundingBox.new (row det 0) (row det 1) (row det 2) (row det 3)
      (⌊row det 5⌋).toNat (row det 4))
    (List.range numDet)

/-- C2: a dense (YOLOv8) candidate is emitted exactly when its max class
score strictly exceeds the threshold, a fixed-topk (YOLOv10) candidate
exactly when its confidence is greater than or equal to the threshold; in
particular, on a candidate whose best score equals the threshold the dense
decoder emits nothing while the topk decoder emits the box. -/
theorem decoder_threshold_strict_vs_inclusive (out row : ℕ → ℕ → ℚ) (numRows numDet : ℕ)
    (thr : ℚ) :
    (Yolov8Inference.parse_output out numRows numDet thr
      = ((List.range numDet).filter
          (fun det => decide ((classMaxScan (fun c => out (4 + c) det) (numRows - 4)).2 > thr))).map
          (fun det => BoundingBox.from_center (out 0 det) (out 1 det) (out 2 det) (out 3 det)
            (classMaxScan (fun c => out (4 + c) det) (numRows - 4)).1
            (classMaxScan (fun c => out (4 + c) det) (numRows - 4)).2)) ∧
    (Yolov10Inference.parse_output row numDet thr
      = ((List.range numDet).filter (fun det => decide (row det 4 ≥ thr))).map
          (fun det => BoundingBox.new (row det 0) (row det 1) (row det 2) (row det 3)
            (⌊row det 5⌋).toNat (row det 4))) ∧
    Yolov8Inference.parse_output (fun _ _ => thr) 6 1 thr = [] ∧
    Yolov10Inference.parse_output (fun _ _ => thr) 1 thr
      = [BoundingBox.new thr thr thr thr (⌊thr⌋).toNat thr] := by
  refine ⟨v8_parse_eq out numRows numDet thr, v10_parse_eq row numDet thr, ?_, ?_⟩
  · simp [Yolov8Inference.parse_output, classMaxScan, scanStep, List.range']
  · simp [Yolov10Inference.parse_output, List.range_succ]

lemma scanFold_spec (score : ℕ → ℚ) :
    ∀ (cs : List ℕ) (acc : ℕ × ℚ), acc.2 = score acc.1 →
      List.Pairwise (· < ·) cs → (∀ c ∈ cs, acc.1 < c) →
      (cs.foldl (scanStep score) acc).2 = score (cs.foldl (scanStep score) acc).1 ∧
      (cs.foldl (scanStep score) acc = acc ∨
        (acc.2 < (cs.foldl (scanStep score) acc).2 ∧ (cs.foldl (scanStep score) acc).1 ∈ cs)) ∧
      acc.2 ≤ (cs.foldl (scanStep score) acc).2 ∧
      (∀ c ∈ cs, score c ≤ (cs.foldl (scanStep score) acc).2) ∧
      (∀ c ∈ cs, score c = (cs.foldl (scanStep score) acc).2 →
        (cs.foldl (scanStep score) acc).1 ≤ c) := by
  intro cs
  induction cs with
  | nil =>
      intro acc hacc _ _
      exact ⟨hacc, Or.inl rfl, le_rfl, by simp, by simp⟩
  | cons c cs ih =>
      intro acc hacc hpw hlt
      rw [List.foldl_cons]
      have hpwtail : List.Pairwise (· < ·) cs := hpw.of_cons
      by_cases hc : score c > acc.2
      · have hstep : scanStep score acc c = (c, score c) := by
          unfold scanStep
          rw [if_pos hc]
        rw [hstep]
        have hlt2 : ∀ x ∈ cs, (c, score c).2 < x → True := fun _ _ _ => trivial
        have hlt3 : ∀ x ∈ cs, (c, score c).1 < x := by
          intro x hx
          exact (List.pairwise_cons.mp hpw).1 x hx
        obtain ⟨ih1, ih2, ih3, ih4, ih5⟩ := ih (c, score c) rfl hpwtail hlt3
        refine ⟨ih1, ?_, ?_, ?_, ?_⟩
        · rcases ih2 with h | ⟨h1, h2⟩
          · right
            rw [h]
            exact ⟨hc, List.mem_cons_self c cs⟩
          · right
            exact ⟨lt_trans hc h1, List.mem_cons_of_mem c h2⟩
        · exact le_trans (le_of_lt hc) ih3
        · intro x hx
          rcases List.mem_cons.mp hx with hxc | hxcs
          · subst hxc
            exact ih3
          · exact ih4 x hxcs
        · intro x hx hxval
          rcases List.mem_cons.mp hx with hxc | hxcs
          · subst hxc
            rcases ih2 with h | ⟨h1, _⟩
            · rw [h]
            · exfalso
              rw [← hxval] at h1
              exact lt_irrefl _ h1
          · exact ih5 x hxcs hxval
      · have hstep : scanStep score acc c = acc := by
          unfold scanStep
          rw [if_neg hc]
        rw [hstep]
        have hle : score c ≤ acc.2 := not_lt.mp hc
        have hlt3 : ∀ x ∈ cs, acc.1 < x := fun x hx => hlt x (List.mem_cons_of_mem c hx)
        obtain ⟨ih1, ih2, ih3, ih4, ih5⟩ := ih acc hacc hpwtail hlt3
        refine ⟨ih1, ?_, ih3, ?_, ?_⟩
        · rcases ih2 with h | ⟨h1, h2⟩
          · exact Or.inl h
          · exact Or.inr ⟨h1, List.mem_cons_of_mem c h2⟩
        · intro x hx
          rcases List.mem_cons.mp hx with hxc | hxcs
          · subst hxc
            exact le_trans hle ih3
          · exact ih4 x hxcs
        · intro x hx hxval
          rcases List.mem_cons.mp hx with hxc | hxcs
          · subst hxc
            rcases ih2 with h | ⟨h1, _⟩
            · rw [h]
              exact le_of_lt (hlt x (List.mem_cons_self x cs))
            · exfalso
              rw [hxval] at hle
              exact absurd (lt_of_lt_of_le h1 hle) (lt_irrefl _)
          · exact ih5 x hxcs hxval

lemma classMaxScan_spec (score : ℕ → ℚ) (numClasses : ℕ) (h : 0 < numClasses) :
    (classMaxScan score numClasses).1 < numClasses ∧
    (classMaxScan score numClasses).2 = score (classMaxScan score numClasses).1 ∧
    (∀ c < numClasses, score c ≤ (classMaxScan score numClasses).2) ∧
    (∀ c < numClasses, score c = (classMaxScan score numClasses).2 →
      (classMaxScan score numClasses).1 ≤ c) := by
  have hmem : ∀ c ∈ List.range' 1 (numClasses - 1), 1 ≤ c ∧ c < numClasses := by
    intro c hc
    rcases List.mem_range'.mp hc with ⟨i, hi, hci⟩
    omega
  have hlt : ∀ c ∈ List.range' 1 (numClasses - 1), (0, score 0).1 < c := by
    intro c hc
    have := (hmem c hc).1
    simpa using lt_of_lt_of_le Nat.zero_lt_one this
  obtain ⟨h1, h2, h3, h4, h5⟩ := scanFold_spec score (List.range' 1 (numClasses - 1))
    (0, score 0) rfl (List.pairwise_lt_range' 1 (numClasses - 1)) hlt
  unfold classMaxScan
  refine ⟨?_, h1, ?_, ?_⟩
  · rcases h2 with heq | ⟨_, hm⟩
    · rw [heq]
      exact h
    · exact (hmem _ hm).2
  · intro c hc
    rcases Nat.eq_zero_or_pos c with hc0 | hcpos
    · subst hc0
      exact h3
    · exact h4 c (List.mem_range'.mpr ⟨c - 1, by omega, by omega⟩)
  · intro c hc hcval
    rcases Nat.eq_zero_or_pos c with hc0 | hcpos
    · subst hc0
      rcases h2 with heq | ⟨h21, _⟩
      · rw [heq]
      · exact absurd hcval (ne_of_lt h21)
    · exact h5 c (List.mem_range'.mpr ⟨c - 1, by omega, by omega⟩) hcval

/-- C3: every box emitted by the dense (YOLOv8) decoder carries as class_id
the arg-max of the per-class scores of its candidate column, with the lowest
class index chosen on ties (the strict comparison of the scan keeps the
first encountered maximum), and its confidence is exactly that raw maximal
score (no softmax or rescaling is applied). -/
theorem dense_argmax_lowest_index (out : ℕ → ℕ → ℚ) (numRows numDet : ℕ) (thr : ℚ)
    (hrows : 4 < numRows) (b : BoundingBox)
    (hb : b ∈ Yolov8Inference.parse_output out numRows numDet thr) :
    ∃ det, det < numDet ∧
      b.confidence = out (4 + b.class_id) det ∧
      b.class_id < numRows - 4 ∧
      (∀ c < numRows - 4, out (4 + c) det ≤ b.confidence) ∧
      (∀ c < numRows - 4, out (4 + c) det = b.confidence → b.class_id ≤ c) := by
  rw [v8_parse_eq] at hb
  rcases List.mem_map.mp hb with ⟨det, hdet, hbeq⟩
  have hdetlt : det < numDet := List.mem_range.mp (List.mem_filter.mp hdet).1
  obtain ⟨hs1, hs2, hs3, hs4⟩ := classMaxScan_spec (fun c => out (4 + c) det) (numRows - 4)
    (by omega)
  have hcls : b.class_id = (classMaxScan (fun c => out (4 + c) det) (numRows - 4)).1 := by
    rw [← hbeq]
    rfl
  have hconf : b.confidence = (classMaxScan (fun c => out (4 + c) det) (numRows - 4)).2 := by
    rw [← hbeq]
    rfl
  refine ⟨det, hdetlt, ?_, ?_, ?_, ?_⟩
  · rw [hconf, hcls]
    exact hs2
  · rw [hcls]
    exact hs1
  · intro c hc
    rw [hconf]
    exact hs3 c hc
  · intro c hc hcv
    rw [hcls]
    apply hs4 c hc
    rw [← hconf]
    exact hcv

/-- The geometric outcome of resize_and_pad_image, image_util.rs lines
53-96: uniform scale, rounded resize target, centered padding offsets.
u32 arithmetic is Nat arithmetic (truncating subtraction and division);
f32 round on the non-negative values occurring here is half-up rounding,
i.e. Mathlib round; the `as u32` cast of the non-negative rounded value is
Int.toNat. The row-copy loop only consumes these four numbers. -/
structure LetterboxLayout where
  new_width : ℕ
  new_height : ℕ
  pad_left : ℕ
  pad_top : ℕ
deriving DecidableEq

/-- resize_and_pad_image, image_util.rs lines 53-96 (geometry part). -/
def resize_and_pad_image (orig_width orig_height target_width target_height : ℕ) :
    LetterboxLayout :=
  let scale_x : ℚ := target_width / orig_width
  let scale_y : ℚ := target_height / orig_height
  let scale : ℚ := min scale_x scale_y
  let new_width : ℕ := (round ((orig_width : ℚ) * scale)).toNat
  let new_height : ℕ := (round ((orig_height : ℚ) * scale)).toNat
  { new_width := new_width
    new_height := new_height
    pad_left := (target_width - new_width) / 2
    pad_top := (target_height - new_height) / 2 }

lemma round_le_natCast {x : ℚ} {n : ℕ} (h : x ≤ (n : ℚ)) : round x ≤ (n : ℤ) := by
  have h1 : round x ≤ round ((n : ℚ)) := by
    rw [round_eq, round_eq]
    exact Int.floor_le_floor (by linarith)
  rwa [round_natCast] at h1

lemma round_nonneg_of_nonneg {x : ℚ} (h : 0 ≤ x) : 0 ≤ round x := by
  rw [round_eq]
  exact Int.floor_nonneg.mpr (by linarith)

/-- C6: letterboxing computes the uniform scale min(tw/ow, th/oh), resizes
to the rounded scaled dimensions, which never exceed the target and keep
the source aspect ratio up to the rounding error of half a pixel per axis,
and centers the copy with pad_left = (tw - new_w)/2 and symmetric pad_top. -/
theorem letterbox_preserves_aspect_and_fits (ow oh tw th : ℕ) (hw : 0 < ow) (hh : 0 < oh) :
    (resize_and_pad_image ow oh tw th).new_width ≤ tw ∧
    (resize_and_pad_image ow oh tw th).new_height ≤ th ∧
    |((resize_and_pad_image ow oh tw th).new_width : ℚ) * oh
      - ((resize_and_pad_image ow oh tw th).new_height : ℚ) * ow| ≤ ((ow : ℚ) + oh) / 2 ∧
    (resize_and_pad_image ow oh tw th).new_width
      = (round ((ow : ℚ) * min ((tw : ℚ) / ow) ((th : ℚ) / oh))).toNat ∧
    (resize_and_pad_image ow oh tw th).new_height
      = (round ((oh : ℚ) * min ((tw : ℚ) / ow) ((th : ℚ) / oh))).toNat ∧
    (resize_and_pad_image ow oh tw th).pad_left
      = (tw - (resize_and_pad_image ow oh tw th).new_width) / 2 ∧
    (resize_and_pad_image ow oh tw th).pad_top
      = (th - (resize_and_pad_image ow oh tw th).new_height) / 2 := by
  have howq : (0 : ℚ) < (ow : ℚ) := by exact_mod_cast hw
  have hohq : (0 : ℚ) < (oh : ℚ) := by exact_mod_cast hh
  set s : ℚ := min ((tw : ℚ) / ow) ((th : ℚ) / oh) with hs
  have hs0 : 0 ≤ s := le_min (div_nonneg (Nat.cast_nonneg tw) (le_of_lt howq))
    (div_nonneg (Nat.cast_nonneg th) (le_of_lt hohq))
  have ha0 : 0 ≤ (ow : ℚ) * s := mul_nonneg (le_of_lt howq) hs0
  have hb0 : 0 ≤ (oh : ℚ) * s := mul_nonneg (le_of_lt hohq) hs0
  have haw : (ow : ℚ) * s ≤ (tw : ℚ) := by
    have h1 : s ≤ (tw : ℚ) / ow := min_le_left _ _
    have h2 : (ow : ℚ) * s ≤ (ow : ℚ) * ((tw : ℚ) / ow) :=
      mul_le_mul_of_nonneg_left h1 (le_of_lt howq)
    have h3 : (ow : ℚ) * ((tw : ℚ) / ow) = tw := by
      field_simp
    linarith
  have hbh : (oh : ℚ) * s ≤ (th : ℚ) := by
    have h1 : s ≤ (th : ℚ) / oh := min_le_right _ _
    have h2 : (oh : ℚ) * s ≤ (oh : ℚ) * ((th : ℚ) / oh) :=
      mul_le_mul_of_nonneg_left h1 (le_of_lt hohq)
    have h3 : (oh : ℚ) * ((th : ℚ) / oh) = th := by
      field_simp
    linarith
  have hnw : (resize_and_pad_image ow oh tw th).new_width
      = (round ((ow : ℚ) * s)).toNat := rfl
  have hnh : (resize_and_pad_image ow oh tw th).new_height
      = (round ((oh : ℚ) * s)).toNat := rfl
  have hfitw : (resize_and_pad_image ow oh tw th).new_width ≤ tw := by
    rw [hnw]
    exact Int.toNat_le.mpr (round_le_natCast haw)
  have hfith : (resize_and_pad_image ow oh tw th).new_height ≤ th := by
    rw [hnh]
    exact Int.toNat_le.mpr (round_le_natCast hbh)
  refine ⟨hfitw, hfith, ?_, hnw, hnh, rfl, rfl⟩
  have hcastw : (((resize_and_pad_image ow oh tw th).new_width : ℕ) : ℚ)
      = ((round ((ow : ℚ) * s) : ℤ) : ℚ) := by
    rw [hnw]
    exact_mod_cast congrArg (fun z : ℤ => ((z : ℚ)))
      (Int.toNat_of_nonneg (round_nonneg_of_nonneg ha0))
  have hcasth : (((resize_and_pad_image ow oh tw th).new_height : ℕ) : ℚ)
      = ((round ((oh : ℚ) * s) : ℤ) : ℚ) := by
    rw [hnh]
    exact_mod_cast congrArg (fun z : ℤ => ((z : ℚ)))
      (Int.toNat_of_nonneg (round_nonneg_of_nonneg hb0))
  rw [hcastw, hcasth]
  have hra : |((round ((ow : ℚ) * s) : ℤ) : ℚ) - (ow : ℚ) * s| ≤ 1 / 2 := by
    rw [abs_sub_comm]
    exact abs_sub_round _
  have hrb : |((round ((oh : ℚ) * s) : ℤ) : ℚ) - (oh : ℚ) * s| ≤ 1 / 2 := by
    rw [abs_sub_comm]
    exact abs_sub_round _
  have hkey : ((round ((ow : ℚ) * s) : ℤ) : ℚ) * oh - ((round ((oh : ℚ) * s) : ℤ) : ℚ) * ow
      = (((round ((ow : ℚ) * s) : ℤ) : ℚ) - (ow : ℚ) * s) * oh
        - (((round ((oh : ℚ) * s) : ℤ) : ℚ) - (oh : ℚ) * s) * ow := by
    ring
  rw [hkey]
  have h1 : |(((round ((ow : ℚ) * s) : ℤ) : ℚ) - (ow : ℚ) * s) * oh| ≤ (oh : ℚ) / 2 := by
    rw [abs_mul, abs_of_nonneg (le_of_lt hohq)]
    calc |((round ((ow : ℚ) * s) : ℤ) : ℚ) - (ow : ℚ) * s| * oh ≤ (1 / 2) * oh :=
          mul_le_mul_of_nonneg_right hra (le_of_lt hohq)
      _ = (oh : ℚ) / 2 := by ring
  have h2 : |(((round ((oh : ℚ) * s) : ℤ) : ℚ) - (oh : ℚ) * s) * ow| ≤ (ow : ℚ) / 2 := by
    rw [abs_mul, abs_of_nonneg (le_of_lt howq)]
    calc |((round ((oh : ℚ) * s) : ℤ) : ℚ) - (oh : ℚ) * s| * ow ≤ (1 / 2) * ow :=
          mul_le_mul_of_nonneg_right hrb (le_of_lt howq)
      _ = (ow : ℚ) / 2 := by ring
  calc |(((round ((ow : ℚ) * s) : ℤ) : ℚ) - (ow : ℚ) * s) * oh
        - (((round ((oh : ℚ) * s) : ℤ) : ℚ) - (oh : ℚ) * s) * ow|
      ≤ |(((round ((ow : ℚ) * s) : ℤ) : ℚ) - (ow : ℚ) * s) * oh|
        + |(((round ((oh : ℚ) * s) : ℤ) : ℚ) - (oh : ℚ) * s) * ow| := abs_sub _ _
    _ ≤ (oh : ℚ) / 2 + (ow : ℚ) / 2 := add_le_add h1 h2
    _ = ((ow : ℚ) + oh) / 2 := by ring

/-- C6 witness: a 1280x720 source letterboxed into a 640x640 target. -/
theorem letterbox_preserves_aspect_and_fits_witness :
    (resize_and_pad_image 1280 720 640 640).new_width ≤ 640 ∧
    (resize_and_pad_image 1280 720 640 640).new_height ≤ 640 ∧
    |((resize_and_pad_image 1280 720 640 640).new_width : ℚ) * 720
      - ((resize_and_pad_image 1280 720 640 640).new_height : ℚ) * 1280|
        ≤ ((1280 : ℚ) + 720) / 2 ∧
    (resize_and_pad_image 1280 720 640 640).new_width
      = (round ((1280 : ℚ) * min ((640 : ℚ) / 1280) ((640 : ℚ) / 720))).toNat ∧
    (resize_and_pad_image 1280 720 640 640).new_height
      = (round ((720 : ℚ) * min ((640 : ℚ) / 1280) ((640 : ℚ) / 720))).toNat ∧
    (resize_and_pad_image 1280 720 640 640).pad_left
      = (640 - (resize_and_pad_image 1280 720 640 640).new_width) / 2 ∧
    (resize_and_pad_image 1280 720 640 640).pad_top
      = (640 - (resize_and_pad_image 1280 720 640 640).new_height) / 2 :=
  letterbox_preserves_aspect_and_fits 1280 720 640 640 (by norm_num) (by norm_num)

/-- DEFAULT_MEAN, image/mod.rs line 12: all-zero fallback mean. -/
def DEFAULT_MEAN : Fin 3 → ℚ := fun _ => 0

/-- DEFAULT_STD, image/mod.rs line 13: all-one fallback std. -/
def DEFAULT_STD : Fin 3 → ℚ := fun _ => 1

/-- normalize_image_f32, image_util.rs lines 121-158, per channel plane:
mean and std default when absent, scale = 1/(255*std[c]) and
offset = -mean[c]/std[c] are precomputed, and each 8-bit sample x maps to
x * scale + offset. -/
def normalize_image_f32 (mean std : Option (Fin 3 → ℚ)) (channels : Fin 3 → List ℕ) :
    Fin 3 → List ℚ :=
  let m := mean.getD DEFAULT_MEAN
  let s := std.getD DEFAULT_STD
  fun c => (channels c).map (fun x => (x : ℚ) * (1 / (255 * s c)) + (-(m c) / s c))

/-- The reference normalization exactly as the spec words it:
out = (in/255 - mean[c]) / std[c]. -/
def spec_normalize (mean std : Fin 3 → ℚ) (c : Fin 3) (x : ℚ) : ℚ :=
  (x / 255 - mean c) / std c

/-- C7: for every channel and every sample, the precomputed
scale-and-offset normalization agrees with the reference definition
(x/255 - mean[c]) / std[c] whenever std[c] is nonzero, and with the
all-zero mean and all-one std defaults it is exactly x/255. -/
theorem normalize_matches_reference (mean std : Fin 3 → ℚ) (hstd : ∀ c, std c ≠ 0)
    (channels : Fin 3 → List ℕ) :
    (∀ c, normalize_image_f32 (some mean) (some std) channels c
        = (channels c).map (fun x => spec_normalize mean std c (x : ℚ))) ∧
    (∀ c, normalize_image_f32 none none channels c
        = (channels c).map (fun x => (x : ℚ) / 255)) := by
  constructor
  · intro c
    unfold normalize_image_f32
    refine List.map_congr_left ?_
    intro x _
    unfold spec_normalize
    field_simp
    ring
  · intro c
    unfold normalize_image_f32 DEFAULT_MEAN DEFAULT_STD
    refine List.map_congr_left ?_
    intro x _
    norm_num [div_eq_mul_inv]

/-- C7 witness with mean 1, std 2 on a two-sample channel. -/
theorem normalize_matches_reference_witness :
    (∀ c, normalize_image_f32 (some (fun _ => 1)) (some (fun _ => 2)) (fun _ => [0, 255]) c
        = ((fun _ : Fin 3 => [(0 : ℕ), 255]) c).map
            (fun x => spec_normalize (fun _ => 1) (fun _ => 2) c (x : ℚ))) ∧
    (∀ c, normalize_image_f32 none none (fun _ => [0, 255]) c
        = ((fun _ : Fin 3 => [(0 : ℕ), 255]) c).map (fun x => (x : ℚ) / 255)) :=
  normalize_matches_reference (fun _ => 1) (fun _ => 2) (fun _ => by norm_num) (fun _ => [0, 255])

/-- Concrete two-class dense tensor column for the C3 witness: box rows
are (0, 1, 2, 4) in center form, class scores are 9/10 and 1/10. -/
def witnessOut : ℕ → ℕ → ℚ :=
  fun r _ =>
    if r = 4 then mkRat 9 10 else if r = 5 then mkRat 1 10 else if r = 3 then 4 else (r : ℚ)

/-- C3 witness at a concrete two-class column. -/
theorem dense_argmax_lowest_index_witness :
    ∃ det, det < 1 ∧
      (⟨-1, -1, 1, 3, 0, mkRat 9 10⟩ : BoundingBox).confidence
        = witnessOut (4 + (⟨-1, -1, 1, 3, 0, mkRat 9 10⟩ : BoundingBox).class_id) det ∧
      (⟨-1, -1, 1, 3, 0, mkRat 9 10⟩ : BoundingBox).class_id < 6 - 4 ∧
      (∀ c < 6 - 4, witnessOut (4 + c) det
        ≤ (⟨-1, -1, 1, 3, 0, mkRat 9 10⟩ : BoundingBox).confidence) ∧
      (∀ c < 6 - 4, witnessOut (4 + c) det
          = (⟨-1, -1, 1, 3, 0, mkRat 9 10⟩ : BoundingBox).confidence →
        (⟨-1, -1, 1, 3, 0, mkRat 9 10⟩ : BoundingBox).class_id ≤ c) :=
  dense_argmax_lowest_index witnessOut 6 1 (mkRat 1 2) (by omega)
    ⟨-1, -1, 1, 3, 0, mkRat 9 10⟩
    (by norm_num [Yolov8Inference.parse_output, classMaxScan, scanStep, witnessOut,
      BoundingBox.from_center, BoundingBox.new, List.range', List.range_succ])

/-- The two files save_outputs writes for one image, yolo_session.rs lines
162-177: the annotated jpg and the YOLO-format txt. -/
inductive OutFile where
  | annotatedImage : OutFile
  | detectionTxt : OutFile
deriving DecidableEq

/-- SessionError kinds relevant to the orchestration path, session/mod.rs. -/
inductive SessionErr where
  | io : SessionErr
  | imageProcessing : SessionErr
  | inference : SessionErr
deriving DecidableEq

/-- Environment oracle for one process_image call: the success or failure
of each fallible external step (filesystem and inference runtime), in the
order the code performs them. -/
structure FsEnv where
  loadOk : Bool
  inferOk : Bool
  createDirOk : Bool
  stemOk : Bool
  imageSaveOk : Bool
  txtWriteOk : Bool
deriving DecidableEq

/-- save_outputs, yolo_session.rs lines 144-180, as a filesystem trace:
create_dir_all, file_stem extraction, image.save, then the txt write; each
step propagates its error with ?, and the files written so far stay
written. A failing step is modelled as writing nothing itself. -/
def save_outputs (env : FsEnv) : List OutFile × Option SessionErr :=
  if !env.createDirOk then ([], some SessionErr.io)
  else if !env.stemOk then ([], some SessionErr.imageProcessing)
  else if !env.imageSaveOk then ([], some SessionErr.io)
  else if !env.txtWriteOk then ([OutFile.annotatedImage], some SessionErr.io)
  else ([OutFile.annotatedImage, OutFile.detectionTxt], none)

/-- process_image_with_output_dir, yolo_session.rs lines 188-217: load and
preprocess, normalize (pure), run inference, nms (pure), draw (pure), then
save_outputs; every stage before save_outputs performs no filesystem write
and aborts the pipeline for this image on error. -/
def process_image_with_output_dir (env : FsEnv) : List OutFile × Option SessionErr :=
  if !env.loadOk then ([], some SessionErr.imageProcessing)
  else if !env.inferOk then ([], some SessionErr.inference)
  else save_outputs env

/-- process_images_batch, yolo_session.rs lines 220-237: each listed image
is processed independently and its per-item result collected; an item error
is stored in the vector and does not abort the remaining items. -/
def process_images_batch (envs : List FsEnv) : List (List OutFile × Option SessionErr) :=
  envs.map process_image_with_output_dir

/-- C9 counterexample: when the detection-txt write fails after the image
save succeeded, the single-image call returns an error yet the annotated
image has been written without its detection file, a partial output. -/
theorem single_image_partial_write_cex :
    (process_image_with_output_dir ⟨true, true, true, true, true, false⟩).2
        = some SessionErr.io ∧
    OutFile.annotatedImage ∈ (process_image_with_output_dir ⟨true, true, true, true, true, false⟩).1 ∧
    OutFile.detectionTxt ∉ (process_image_with_output_dir ⟨true, true, true, true, true, false⟩).1 := by
  refine ⟨rfl, ?_, ?_⟩ <;> decide

/-- C9 (amended): a single-image call that fails before save_outputs writes
nothing; the detection text file is never written without the annotated
image (the image is saved first), and the call succeeds exactly when both
files were written — but a failing detection-file write can leave the
annotated image already on disk. Batch processing collects one result per
input and continues past failing items. -/
theorem single_image_write_ordering (env : FsEnv) (envs : List FsEnv) :
    (OutFile.detectionTxt ∈ (process_image_with_output_dir env).1 →
      OutFile.annotatedImage ∈ (process_image_with_output_dir env).1) ∧
    ((process_image_with_output_dir env).2 = none ↔
      (process_image_with_output_dir env).1 = [OutFile.annotatedImage, OutFile.detectionTxt]) ∧
    (env.loadOk = false → process_image_with_output_dir env = ([], some SessionErr.imageProcessing)) ∧
    (env.inferOk = false → env.loadOk = true →
      process_image_with_output_dir env = ([], some SessionErr.inference)) ∧
    (process_images_batch envs).length = envs.length ∧
    (∀ r ∈ process_images_batch envs, ∃ e ∈ envs, r = process_image_with_output_dir e) := by
  refine ⟨?_, ?_, ?_, ?_, ?_, ?_⟩
  · rcases env with ⟨a, b, c, d, e, f⟩
    cases a <;> cases b <;> cases c <;> cases d <;> cases e <;> cases f <;> decide
  · rcases env with ⟨a, b, c, d, e, f⟩
    cases a <;> cases b <;> cases c <;> cases d <;> cases e <;> cases f <;> decide
  · intro h
    rcases env with ⟨a, b, c, d, e, f⟩
    simp only at h
    subst h
    rfl
  · intro h1 h2
    rcases env with ⟨a, b, c, d, e, f⟩
    simp only at h1 h2
    subst h1
    subst h2
    rfl
  · simp [process_images_batch]
  · intro r hr
    rcases List.mem_map.mp hr with ⟨e, he, hre⟩
    exact ⟨e, he, hre.symm⟩

/-- C9 witness at a concrete all-success environment and one-item batch. -/
theorem single_image_write_ordering_witness :
    (OutFile.detectionTxt
        ∈ (process_image_with_output_dir ⟨true, true, true, true, true, true⟩).1 →
      OutFile.annotatedImage
        ∈ (process_image_with_output_dir ⟨true, true, true, true, true, true⟩).1) ∧
    ((process_image_with_output_dir ⟨true, true, true, true, true, true⟩).2 = none ↔
      (process_image_with_output_dir ⟨true, true, true, true, true, true⟩).1
        = [OutFile.annotatedImage, OutFile.detectionTxt]) ∧
    ((⟨true, true, true, true, true, true⟩ : FsEnv).loadOk = false →
      process_image_with_output_dir ⟨true, true, true, true, true, true⟩
        = ([], some SessionErr.imageProcessing)) ∧
    ((⟨true, true, true, true, true, true⟩ : FsEnv).inferOk = false →
      (⟨true, true, true, true, true, true⟩ : FsEnv).loadOk = true →
      process_image_with_output_dir ⟨true, true, true, true, true, true⟩
        = ([], some SessionErr.inference)) ∧
    (process_images_batch [⟨true, true, true, true, true, true⟩]).length
      = [(⟨true, true, true, true, true, true⟩ : FsEnv)].length ∧
    (∀ r ∈ process_images_batch [⟨true, true, true, true, true, true⟩],
      ∃ e ∈ [(⟨true, true, true, true, true, true⟩ : FsEnv)],
        r = process_image_with_output_dir e) :=
  single_image_write_ordering ⟨true, true, true, true, true, true⟩
    [⟨true, true, true, true, true, true⟩]

/-- An RGB image as its pixel grid: the to_rgb8 view the renderer reads and
returns (the session always passes an already-RGB8 image). -/
structure RgbImage where
  width : ℕ
  height : ℕ
  pixel : ℕ → ℕ → ℕ × ℕ × ℕ

/-- DrawConfig, visualization.rs lines 10-27, with its Default values. -/
structure DrawConfig where
  line_width : ℚ
  alpha_blend : Bool
  show_confidence : Bool
  font_size : ℚ

/-- DrawConfig::default, visualization.rs lines 18-27. -/
def DrawConfig.default : DrawConfig := ⟨4, true, false, 12⟩

/-- blend_with_original_image, visualization.rs lines 156-208. The overlay
argument is the RGBA pixel grid recovered from the raqote draw target. The
result starts as the original image and is returned untouched when
alpha_blend is false; otherwise each pixel with nonzero overlay alpha is
integer alpha-blended channelwise. The u16 arithmetic (values at most
255 * 255 + 255 * 255) cannot overflow, so Nat arithmetic models it exactly. -/
def blend_with_original_image (original : RgbImage)
    (overlay : ℕ → ℕ → ℕ × ℕ × ℕ × ℕ) (alpha_blend : Bool) : RgbImage :=
  if !alpha_blend then original
  else
    { original with
      pixel := fun x y =>
        let p := overlay x y
        let a := p.2.2.2
        if a = 0 then original.pixel x y
        else
          let o := original.pixel x y
          ((p.1 * a + o.1 * (255 - a)) / 255,
           (p.2.1 * a + o.2.1 * (255 - a)) / 255,
           (p.2.2.1 * a + o.2.2 * (255 - a)) / 255) }

/-- draw_bounding_boxes, visualization.rs lines 32-64. Stroking the scaled
rectangles into the raqote draw target is external library work; rasterize
models the RGBA overlay that stroking the given boxes at the given scales
and config produces. An empty box list short-circuits to the original
image; otherwise the overlay is combined by blend_with_original_image. -/
def draw_bounding_boxes
    (rasterize : List BoundingBox → ℕ × ℕ → DrawConfig → ℕ → ℕ → ℕ × ℕ × ℕ × ℕ)
    (image : RgbImage) (boxes : List BoundingBox) (input_size : ℕ × ℕ)
    (config : Option DrawConfig) : RgbImage :=
  let cfg := config.getD DrawConfig.default
  if boxes.isEmpty then image
  else blend_with_original_image image (rasterize boxes input_size cfg) cfg.alpha_blend

/-- C10: with alpha_blend disabled, draw_bounding_boxes returns the
original image pixels unchanged for every box list and every rasterized
overlay: the stroked overlay is discarded rather than composited opaquely. -/
theorem draw_without_alpha_blend_is_identity
    (rasterize : List BoundingBox → ℕ × ℕ → DrawConfig → ℕ → ℕ → ℕ × ℕ × ℕ × ℕ)
    (image : RgbImage) (boxes : List BoundingBox) (input_size : ℕ × ℕ)
    (cfg : DrawConfig) (halpha : cfg.alpha_blend = false) :
    draw_bounding_boxes rasterize image boxes input_size (some cfg) = image := by
  unfold draw_bounding_boxes
  cases hb : boxes.isEmpty <;>
    simp [hb, halpha, blend_with_original_image]

/-- C10 witness: a concrete 1x1 image, one box, alpha_blend off. -/
theorem draw_without_alpha_blend_is_identity_witness :
    draw_bounding_boxes (fun _ _ _ _ _ => (0, 0, 0, 0))
      ⟨1, 1, fun _ _ => (0, 0, 0)⟩ [⟨0, 0, 1, 1, 0, 1⟩] (1, 1)
      (some ⟨4, false, false, 12⟩)
      = ⟨1, 1, fun _ _ => (0, 0, 0)⟩ :=
  draw_without_alpha_blend_is_identity (fun _ _ _ _ _ => (0, 0, 0, 0))
    ⟨1, 1, fun _ _ => (0, 0, 0)⟩ [⟨0, 0, 1, 1, 0, 1⟩] (1, 1) ⟨4, false, false, 12⟩ rfl
